import Mathlib

/-!
Shallow embedding of the VGA text-buffer driver (`src/vga_buffer.rs`).

The driver's state is a `Writer`: a cursor column, a current color code and
an 80×25 grid of screen characters. The Rust code mutates the grid through
volatile stores; here the grid is a total function `Nat → Nat → ScreenChar`
updated functionally, and each loop of the source becomes a `List.foldl`
over the same index range the loop traverses. Bytes are `Nat` values
(`u8` values are below 256; none of the driver's arithmetic can overflow).
-/

namespace VgaBuffer

/-- The 16 VGA colors of the `Color` enum in `src/vga_buffer.rs`. -/
inductive Color where
  | Black | Blue | Green | Cyan | Red | Magenta | Brown | LightGray
  | DarkGray | LightBlue | LightGreen | LightCyan | LightRed | Pink
  | Yellow | White
deriving DecidableEq

/-- The discriminant of each `Color` constructor (`Color as u8` in the source). -/
def Color.toU8 : Color → Nat
  | .Black => 0
  | .Blue => 1
  | .Green => 2
  | .Cyan => 3
  | .Red => 4
  | .Magenta => 5
  | .Brown => 6
  | .LightGray => 7
  | .DarkGray => 8
  | .LightBlue => 9
  | .LightGreen => 10
  | .LightCyan => 11
  | .LightRed => 12
  | .Pink => 13
  | .Yellow => 14
  | .White => 15

/-- `struct ColorCode(u8)`: one attribute byte. -/
structure ColorCode where
  val : Nat
deriving DecidableEq

/-- `ColorCode::new`: `(background as u8) << 4 | (foreground as u8)` in `u8`
arithmetic. The `% 256` reproduces the `u8` truncation of the shift; since
every color code is at most 15 the shifted value is at most 240 and the
truncation never drops a bit. -/
def ColorCode.new (foreground background : Color) : ColorCode :=
  ⟨((background.toU8 <<< 4) % 256) ||| foreground.toU8⟩

/-- `struct ScreenChar { ascii_character: u8, color_code: ColorCode }`. -/
structure ScreenChar where
  ascii_character : Nat
  color_code : ColorCode
deriving DecidableEq

/-- `const BUFFER_HEIGHT: usize = 25`. -/
def BUFFER_HEIGHT : Nat := 25

/-- `const BUFFER_WIDTH: usize = 80`. -/
def BUFFER_WIDTH : Nat := 80

/-- The `Writer`: cursor column, current color code, and the text buffer's
grid `chars` (a volatile `[[ScreenChar; 80]; 25]` in the source, modelled as
a total function on row and column indices; only indices below 25 and 80
are ever accessed, which claim C6 establishes). -/
structure Writer where
  column_position : Nat
  color_code : ColorCode
  chars : Nat → Nat → ScreenChar

/-- One volatile store `chars[row][col].write c`, as a functional update. -/
def writeCellAt (f : Nat → Nat → ScreenChar) (row col : Nat) (c : ScreenChar) :
    Nat → Nat → ScreenChar :=
  fun r k => if r = row ∧ k = col then c else f r k

/-- The blank cell `clear_row` fills with: a space with the current color. -/
def blankChar (w : Writer) : ScreenChar :=
  { ascii_character := 0x20, color_code := w.color_code }

/-- `Writer::clear_row`: `for col in 0..BUFFER_WIDTH` write the blank cell
at `(row, col)`. -/
def clear_row (w : Writer) (row : Nat) : Writer :=
  { w with
    chars := (List.range BUFFER_WIDTH).foldl
      (fun f col => writeCellAt f row col (blankChar w)) w.chars }

/-- The inner loop body of `Writer::new_line` for one `row`:
`for col in 0..BUFFER_WIDTH { let c = chars[row][col].read(); chars[row-1][col].write(c) }`.
The read goes through the accumulated grid, exactly as the source reads the
current buffer state at each step. -/
def copyRowUp (f : Nat → Nat → ScreenChar) (row : Nat) : Nat → Nat → ScreenChar :=
  (List.range BUFFER_WIDTH).foldl
    (fun g col => writeCellAt g (row - 1) col (g row col)) f

/-- `Writer::new_line`: `for row in 1..BUFFER_HEIGHT` copy each row one row
up, then `clear_row(BUFFER_HEIGHT - 1)`, then `column_position = 0`. -/
def new_line (w : Writer) : Writer :=
  let w1 : Writer :=
    { w with chars := (List.range' 1 (BUFFER_HEIGHT - 1)).foldl copyRowUp w.chars }
  let w2 := clear_row w1 (BUFFER_HEIGHT - 1)
  { w2 with column_position := 0 }

/-- `Writer::write_byte`: a newline byte goes to `new_line`; any other byte
first triggers `new_line` when the line is full (`column_position >= 80`),
then is stored at `(BUFFER_HEIGHT - 1, column_position)` with the current
color, and the column advances. -/
def write_byte (w : Writer) (byte : Nat) : Writer :=
  if byte = 10 then new_line w
  else
    let w1 := if BUFFER_WIDTH ≤ w.column_position then new_line w else w
    let row := BUFFER_HEIGHT - 1
    let col := w1.column_position
    let cell : ScreenChar := { ascii_character := byte, color_code := w1.color_code }
    let w2 := { w1 with chars := writeCellAt w1.chars row col cell }
    { w2 with column_position := w2.column_position + 1 }

/-- `Writer::write_string`: each byte of `s`, in order; printable ASCII
(0x20–0x7e) or newline is dispatched to `write_byte` unchanged, anything
else is replaced by the box glyph 0xfe. -/
def write_string (w : Writer) (s : List Nat) : Writer :=
  s.foldl (fun w byte =>
    if (0x20 ≤ byte ∧ byte ≤ 0x7e) ∨ byte = 10 then write_byte w byte
    else write_byte w 0xfe) w

/-- The per-byte dispatch rule of `write_string`, as a byte-to-byte map:
printable ASCII or newline passes through, everything else becomes 0xfe. -/
def translate_byte (byte : Nat) : Nat :=
  if (0x20 ≤ byte ∧ byte ≤ 0x7e) ∨ byte = 10 then byte else 0xfe

/-- How many times `write_byte` invokes `new_line` on this input, read off
the same control flow as `write_byte`: once for a newline byte, once for any
other byte arriving on a full line, otherwise never. -/
def write_byte_scrolls (w : Writer) (byte : Nat) : Nat :=
  if byte = 10 then 1
  else if BUFFER_WIDTH ≤ w.column_position then 1 else 0

/-- Feed a byte list through `write_byte` from an arbitrary writer/count
pair, summing the `new_line` invocations each step performs. -/
def write_bytes_count_from (p : Writer × Nat) (bs : List Nat) : Writer × Nat :=
  bs.foldl (fun p b => (write_byte p.1 b, p.2 + write_byte_scrolls p.1 b)) p

/-- Feed a byte list through `write_byte` while summing the `new_line`
invocations each step performs. -/
def write_bytes_count (w : Writer) (bs : List Nat) : Writer × Nat :=
  write_bytes_count_from (w, 0) bs

/-- The `(row, col)` pairs `clear_row` accesses: every column of `row`. -/
def clear_row_accesses (row : Nat) : List (Nat × Nat) :=
  (List.range BUFFER_WIDTH).map (fun col => (row, col))

/-- The `(row, col)` pairs `new_line` accesses: for each `row` in
`1..BUFFER_HEIGHT` and each `col`, the read at `(row, col)` and the write at
`(row - 1, col)`, followed by the accesses of `clear_row (BUFFER_HEIGHT - 1)`. -/
def new_line_accesses : List (Nat × Nat) :=
  ((List.range' 1 (BUFFER_HEIGHT - 1)).flatMap fun row =>
    (List.range BUFFER_WIDTH).flatMap fun col => [(row, col), (row - 1, col)]) ++
  clear_row_accesses (BUFFER_HEIGHT - 1)

/-- The `(row, col)` pairs `write_byte` accesses: `new_line`'s accesses when
it runs, plus the store at `(BUFFER_HEIGHT - 1, column_position)` (the
column being 0 when a full line just scrolled). -/
def write_byte_accesses (w : Writer) (byte : Nat) : List (Nat × Nat) :=
  if byte = 10 then new_line_accesses
  else
    (if BUFFER_WIDTH ≤ w.column_position then new_line_accesses else []) ++
    [(BUFFER_HEIGHT - 1,
      if BUFFER_WIDTH ≤ w.column_position then 0 else w.column_position)]

/-- The `(row, col)` pairs `write_string` accesses, threaded from an
arbitrary writer/accumulator pair: each byte is dispatched exactly as
`write_string` dispatches it and contributes its `write_byte` accesses. -/
def write_string_accesses_from (p : Writer × List (Nat × Nat)) (s : List Nat) :
    Writer × List (Nat × Nat) :=
  s.foldl (fun p byte =>
      if (0x20 ≤ byte ∧ byte ≤ 0x7e) ∨ byte = 10 then
        (write_byte p.1 byte, p.2 ++ write_byte_accesses p.1 byte)
      else
        (write_byte p.1 0xfe, p.2 ++ write_byte_accesses p.1 0xfe)) p

/-- The `(row, col)` pairs `write_string` accesses: the concatenation of the
accesses of each dispatched `write_byte`, threaded through the evolving
writer exactly as `write_string` threads it. -/
def write_string_accesses (w : Writer) (s : List Nat) : List (Nat × Nat) :=
  (write_string_accesses_from (w, []) s).2

/-- The test string of `test_println_output`, as its byte sequence. -/
def testBytes : List Nat :=
  "Test string that fits on a single line".data.map Char.toNat

/-- A sample writer with a full line (`column_position = 80`) and rows whose
contents identify their row index. -/
def fullWriter : Writer :=
  { column_position := 80
    color_code := ⟨7⟩
    chars := fun r _ => { ascii_character := r, color_code := ⟨7⟩ } }

/-- A sample writer at column 0 with a blank bottom row. -/
def freshWriter : Writer :=
  { column_position := 0
    color_code := ⟨2⟩
    chars := fun r _ =>
      if r = 24 then { ascii_character := 0x20, color_code := ⟨2⟩ }
      else { ascii_character := 0x41, color_code := ⟨7⟩ } }

/-! ### Characterization lemmas for the grid operations -/

/-- Reading a cell after one store. -/
theorem writeCellAt_apply (f : Nat → Nat → ScreenChar) (row col : Nat)
    (c : ScreenChar) (r k : Nat) :
    writeCellAt f row col c r k = if r = row ∧ k = col then c else f r k := rfl

/-- The blanking loop of `clear_row`, over the first `n` columns: row `row`
is blank below column `n`, everything else is untouched. -/
theorem clearFold_apply (f : Nat → Nat → ScreenChar) (row : Nat) (b : ScreenChar) :
    ∀ (n r k : Nat),
      ((List.range n).foldl (fun g col => writeCellAt g row col b) f) r k =
        if r = row ∧ k < n then b else f r k := by
  intro n
  induction n with
  | zero => intro r k; simp
  | succ n ih =>
    intro r k
    rw [List.range_succ, List.foldl_append]
    simp only [List.foldl_cons, List.foldl_nil, writeCellAt_apply]
    rw [ih r k]
    split_ifs <;> first | rfl | (exfalso; omega)

/-- `clear_row` blanks exactly row `row` up to column 80. -/
theorem clear_row_chars (w : Writer) (row r k : Nat) :
    (clear_row w row).chars r k =
      if r = row ∧ k < 80 then blankChar w else w.chars r k := by
  show ((List.range BUFFER_WIDTH).foldl
      (fun g col => writeCellAt g row col (blankChar w)) w.chars) r k = _
  rw [clearFold_apply]
  rfl

/-- `clear_row` leaves the column untouched. -/
theorem clear_row_column (w : Writer) (row : Nat) :
    (clear_row w row).column_position = w.column_position := rfl

/-- `clear_row` leaves the color code untouched. -/
theorem clear_row_color (w : Writer) (row : Nat) :
    (clear_row w row).color_code = w.color_code := rfl

/-- The copy loop of `new_line` for a single row `row ≥ 1`, over the first
`n` columns: row `row - 1` now holds row `row`'s cells below column `n`.
The loop only ever reads row `row`, which none of its own writes touch, so
the reads all see the original grid. -/
theorem copyFold_apply (f : Nat → Nat → ScreenChar) (row : Nat) (hrow : 1 ≤ row) :
    ∀ (n r k : Nat),
      ((List.range n).foldl
          (fun g col => writeCellAt g (row - 1) col (g row col)) f) r k =
        if r = row - 1 ∧ k < n then f row k else f r k := by
  intro n
  induction n with
  | zero => intro r k; simp
  | succ n ih =>
    intro r k
    rw [List.range_succ, List.foldl_append]
    simp only [List.foldl_cons, List.foldl_nil, writeCellAt_apply]
    have hA : ¬ (row = row - 1 ∧ n < n) := by omega
    have h1 : (List.foldl (fun g col => writeCellAt g (row - 1) col (g row col))
        f (List.range n)) row n = f row n := by
      rw [ih row n, if_neg hA]
    rw [h1]
    by_cases hrk : r = row - 1 ∧ k = n
    · rw [if_pos hrk, if_pos ⟨hrk.1, by omega⟩, hrk.2]
    · rw [if_neg hrk, ih r k]
      split_ifs <;> first | rfl | (exfalso; omega)

/-- `copyRowUp` restated through `copyFold_apply`. -/
theorem copyRowUp_apply (f : Nat → Nat → ScreenChar) (row : Nat) (hrow : 1 ≤ row)
    (r k : Nat) :
    copyRowUp f row r k = if r = row - 1 ∧ k < 80 then f row k else f r k := by
  show ((List.range BUFFER_WIDTH).foldl
      (fun g col => writeCellAt g (row - 1) col (g row col)) f) r k = _
  rw [copyFold_apply f row hrow]
  rfl

/-- The row loop of `new_line`, over rows `1..m`: every row below `m` takes
the contents of the row beneath it; row `m` and beyond are untouched.
Each iteration reads a row no earlier iteration has written. -/
theorem rowsFold_apply (f : Nat → Nat → ScreenChar) :
    ∀ (m r k : Nat),
      ((List.range' 1 m).foldl copyRowUp f) r k =
        if r < m ∧ k < 80 then f (r + 1) k else f r k := by
  intro m
  induction m with
  | zero => intro r k; simp
  | succ m ih =>
    intro r k
    rw [List.range'_concat, List.foldl_append]
    simp only [List.foldl_cons, List.foldl_nil]
    rw [copyRowUp_apply _ (1 + 1 * m) (by omega)]
    by_cases hrk : r = (1 + 1 * m) - 1 ∧ k < 80
    · obtain ⟨hr, hk⟩ := hrk
      subst hr
      have hB : ¬ (1 + 1 * m < m ∧ k < 80) := by omega
      rw [if_pos ⟨rfl, hk⟩, ih, if_neg hB, if_pos ⟨by omega, hk⟩]
      have heq : (1 + 1 * m - 1) + 1 = 1 + 1 * m := by omega
      rw [heq]
    · rw [if_neg hrk, ih r k]
      split_ifs <;> first | rfl | (exfalso; omega)

/-- `new_line` scrolls: the bottom row becomes blank, every other row in
range takes the row beneath it, and out-of-range columns are untouched. -/
theorem new_line_chars (w : Writer) (r k : Nat) :
    (new_line w).chars r k =
      if r = 24 ∧ k < 80 then blankChar w
      else if r < 24 ∧ k < 80 then w.chars (r + 1) k
      else w.chars r k := by
  show (clear_row
      { w with chars := (List.range' 1 (BUFFER_HEIGHT - 1)).foldl copyRowUp w.chars }
      (BUFFER_HEIGHT - 1)).chars r k = _
  rw [clear_row_chars]
  show (if r = 24 ∧ k < 80 then blankChar w
    else ((List.range' 1 24).foldl copyRowUp w.chars) r k) = _
  rw [rowsFold_apply]

/-- `new_line` resets the column to 0. -/
theorem new_line_column (w : Writer) : (new_line w).column_position = 0 := rfl

/-- `new_line` leaves the color code untouched. -/
theorem new_line_color (w : Writer) : (new_line w).color_code = w.color_code := rfl

/-! ### `write_byte` case lemmas -/

/-- A newline byte goes straight to `new_line`; the full-line check sits in
the other match arm and is never consulted. -/
theorem write_byte_newline (w : Writer) : write_byte w 10 = new_line w := by
  simp [write_byte]

/-- A non-newline byte on a non-full line: stored at the cursor, column
advances, nothing else moves. -/
theorem write_byte_of_lt (w : Writer) (byte : Nat) (hb : byte ≠ 10)
    (hcol : w.column_position < 80) :
    write_byte w byte =
      { column_position := w.column_position + 1
        color_code := w.color_code
        chars := writeCellAt w.chars 24 w.column_position
          ⟨byte, w.color_code⟩ } := by
  have h80 : ¬ (BUFFER_WIDTH ≤ w.column_position) := by
    simp only [BUFFER_WIDTH]; omega
  simp only [write_byte, if_neg hb, if_neg h80]
  rfl

/-- A non-newline byte on a full line: one `new_line`, then the byte is
stored at column 0 of the fresh bottom row and the column becomes 1. -/
theorem write_byte_of_full (w : Writer) (byte : Nat) (hb : byte ≠ 10)
    (hcol : 80 ≤ w.column_position) :
    write_byte w byte =
      { column_position := 1
        color_code := w.color_code
        chars := writeCellAt (new_line w).chars 24 0
          ⟨byte, w.color_code⟩ } := by
  have h80 : BUFFER_WIDTH ≤ w.column_position := by
    simp only [BUFFER_WIDTH]; omega
  simp only [write_byte, if_neg hb, if_pos h80]
  rfl

/-- `write_byte` never changes the color code. -/
theorem write_byte_color (w : Writer) (byte : Nat) :
    (write_byte w byte).color_code = w.color_code := by
  simp only [write_byte]
  split_ifs <;> rfl

/-- After any `write_byte` the column is at most 80. -/
theorem write_byte_column_le (w : Writer) (byte : Nat) :
    (write_byte w byte).column_position ≤ 80 := by
  by_cases hb : byte = 10
  · subst hb
    rw [write_byte_newline, new_line_column]
    omega
  · by_cases hcol : w.column_position < 80
    · rw [write_byte_of_lt w byte hb hcol]
      show w.column_position + 1 ≤ 80
      omega
    · rw [write_byte_of_full w byte hb (by omega)]
      show 1 ≤ 80
      omega

/-! ### `write_string` lemmas -/

/-- The per-byte dispatch of `write_string` is `write_byte` after
`translate_byte`. -/
theorem write_string_eq_foldl (w : Writer) (s : List Nat) :
    write_string w s =
      s.foldl (fun w b => write_byte w (translate_byte b)) w := by
  have hstep : (fun (w : Writer) (byte : Nat) =>
      if (0x20 ≤ byte ∧ byte ≤ 0x7e) ∨ byte = 10 then write_byte w byte
      else write_byte w 0xfe) =
      fun w b => write_byte w (translate_byte b) := by
    funext w b
    by_cases hb : (0x20 ≤ b ∧ b ≤ 0x7e) ∨ b = 10
    · rw [if_pos hb, translate_byte, if_pos hb]
    · rw [if_neg hb, translate_byte, if_neg hb]
  rw [write_string, hstep]

/-- `write_string` never changes the color code. -/
theorem write_string_color (w : Writer) (s : List Nat) :
    (write_string w s).color_code = w.color_code := by
  rw [write_string_eq_foldl]
  induction s generalizing w with
  | nil => rfl
  | cons b s ih =>
    rw [List.foldl_cons]
    rw [ih (write_byte w (translate_byte b)), write_byte_color]

/-- `write_string` keeps the column within bounds. -/
theorem write_string_column_le (w : Writer) (s : List Nat)
    (hw : w.column_position ≤ 80) :
    (write_string w s).column_position ≤ 80 := by
  rw [write_string_eq_foldl]
  induction s generalizing w with
  | nil => exact hw
  | cons b s ih =>
    rw [List.foldl_cons]
    exact ih (write_byte w (translate_byte b)) (write_byte_column_le w (translate_byte b))

/-- Writing a run of printable bytes that fits on the line: the column
advances by the length, the bytes land in order on the bottom row with the
current color, and every cell left of the starting cursor or off the bottom
row is untouched. -/
theorem write_string_printable_run :
    ∀ (bs : List Nat) (w : Writer),
      (∀ b ∈ bs, 0x20 ≤ b ∧ b ≤ 0x7e) →
      w.column_position + bs.length ≤ 80 →
      (write_string w bs).column_position = w.column_position + bs.length ∧
      (∀ i, i < bs.length →
        (write_string w bs).chars 24 (w.column_position + i) =
          ⟨bs.getD i 0, w.color_code⟩) ∧
      (∀ r k, (r = 24 → k < w.column_position ∨ w.column_position + bs.length ≤ k) →
        (write_string w bs).chars r k = w.chars r k) := by
  intro bs
  induction bs with
  | nil =>
    intro w hp hlen
    refine ⟨by simp [write_string], ?_, ?_⟩
    · intro i hi; exact absurd hi (by simp)
    · intro r k _; rfl
  | cons b bs ih =>
    intro w hp hlen
    have hb := hp b (List.mem_cons_self b bs)
    have hb10 : b ≠ 10 := by omega
    have hcol : w.column_position < 80 := by
      simp only [List.length_cons] at hlen; omega
    have hcons : write_string w (b :: bs) = write_string (write_byte w b) bs := by
      simp only [write_string, List.foldl_cons]
      rw [if_pos (Or.inl hb)]
    have hW : write_string w (b :: bs) = write_string
        { column_position := w.column_position + 1
          color_code := w.color_code
          chars := writeCellAt w.chars 24 w.column_position ⟨b, w.color_code⟩ } bs := by
      rw [hcons, write_byte_of_lt w b hb10 hcol]
    obtain ⟨ih1, ih2, ih3⟩ := ih
        { column_position := w.column_position + 1
          color_code := w.color_code
          chars := writeCellAt w.chars 24 w.column_position ⟨b, w.color_code⟩ }
        (fun x hx => hp x (List.mem_cons_of_mem _ hx))
        (by show w.column_position + 1 + bs.length ≤ 80
            simp only [List.length_cons] at hlen; omega)
    refine ⟨?_, ?_, ?_⟩
    · rw [hW, ih1]
      show w.column_position + 1 + bs.length = w.column_position + (b :: bs).length
      simp only [List.length_cons]; omega
    · intro i hi
      rw [hW]
      cases i with
      | zero =>
        have hfr := ih3 24 w.column_position
          (fun _ => Or.inl (by show w.column_position < w.column_position + 1; omega))
        have hcell : writeCellAt w.chars 24 w.column_position ⟨b, w.color_code⟩
            24 w.column_position = ⟨b, w.color_code⟩ := by
          rw [writeCellAt_apply, if_pos ⟨rfl, rfl⟩]
        exact hfr.trans hcell
      | succ j =>
        have hj : j < bs.length := by simp only [List.length_cons] at hi; omega
        have hcell := ih2 j hj
        have harith : w.column_position + (j + 1) = w.column_position + 1 + j := by
          omega
        rw [harith]
        exact hcell
    · intro r k hrk
      rw [hW]
      have hfr := ih3 r k
        (fun h => by
          rcases hrk h with h1 | h1
          · exact Or.inl (by show k < w.column_position + 1; omega)
          · refine Or.inr ?_
            show w.column_position + 1 + bs.length ≤ k
            simp only [List.length_cons] at h1
            omega)
      rw [hfr]
      show writeCellAt w.chars 24 w.column_position ⟨b, w.color_code⟩ r k = w.chars r k
      have hne : ¬ (r = 24 ∧ k = w.column_position) := by
        intro h
        obtain ⟨h1, h2⟩ := h
        have hd := hrk h1
        simp only [List.length_cons] at hd
        omega
      rw [writeCellAt_apply, if_neg hne]

/-- Feeding a run of printable bytes that fits on the line through the
scroll-counting fold: no `new_line` ever fires, the column advances by the
length, and the color code is untouched. -/
theorem write_bytes_count_printable :
    ∀ (bs : List Nat) (w : Writer) (n : Nat),
      (∀ b ∈ bs, 0x20 ≤ b ∧ b ≤ 0x7e) →
      w.column_position + bs.length ≤ 80 →
      (write_bytes_count_from (w, n) bs).1.column_position =
          w.column_position + bs.length ∧
      (write_bytes_count_from (w, n) bs).1.color_code = w.color_code ∧
      (write_bytes_count_from (w, n) bs).2 = n := by
  intro bs
  induction bs with
  | nil => intro w n hp hlen; exact ⟨by simp [write_bytes_count_from], rfl, rfl⟩
  | cons b bs ih =>
    intro w n hp hlen
    have hb := hp b (List.mem_cons_self b bs)
    have hb10 : b ≠ 10 := by omega
    have hcol : w.column_position < 80 := by
      simp only [List.length_cons] at hlen; omega
    have hscroll : write_byte_scrolls w b = 0 := by
      have h80 : ¬ (BUFFER_WIDTH ≤ w.column_position) := by
        simp only [BUFFER_WIDTH]; omega
      rw [write_byte_scrolls, if_neg hb10, if_neg h80]
    have hstep : write_bytes_count_from (w, n) (b :: bs) =
        write_bytes_count_from (write_byte w b, n + write_byte_scrolls w b) bs := rfl
    rw [hstep, hscroll, write_byte_of_lt w b hb10 hcol]
    obtain ⟨ih1, ih2, ih3⟩ := ih
        { column_position := w.column_position + 1
          color_code := w.color_code
          chars := writeCellAt w.chars 24 w.column_position ⟨b, w.color_code⟩ }
        (n + 0)
        (fun x hx => hp x (List.mem_cons_of_mem _ hx))
        (by show w.column_position + 1 + bs.length ≤ 80
            simp only [List.length_cons] at hlen; omega)
    refine ⟨?_, ih2, by rw [ih3]; omega⟩
    rw [ih1]
    show w.column_position + 1 + bs.length = w.column_position + (b :: bs).length
    simp only [List.length_cons]; omega

/-! ### Access-bound lemmas -/

/-- Every access of `clear_row r` with `r < 25` stays inside the grid. -/
theorem clear_row_accesses_bounded (r : Nat) (hr : r < 25) :
    ∀ p ∈ clear_row_accesses r, p.1 < 25 ∧ p.2 < 80 := by
  intro p hp
  simp only [clear_row_accesses, List.mem_map, List.mem_range] at hp
  obtain ⟨col, hcol, rfl⟩ := hp
  exact ⟨hr, hcol⟩

/-- Every access of `new_line` stays inside the 25×80 grid. -/
theorem new_line_accesses_bounded :
    ∀ p ∈ new_line_accesses, p.1 < 25 ∧ p.2 < 80 := by
  intro p hp
  rw [new_line_accesses] at hp
  rcases List.mem_append.1 hp with h | h
  · simp only [List.mem_flatMap, List.mem_range', List.mem_range] at h
    obtain ⟨row, ⟨i, hi, hrow⟩, col, hcol, hmem⟩ := h
    have hrow25 : row < 25 ∧ 1 ≤ row := by
      simp only [BUFFER_HEIGHT] at hrow hi
      omega
    rcases List.mem_cons.1 hmem with rfl | hmem
    · exact ⟨hrow25.1, hcol⟩
    · rcases List.mem_cons.1 hmem with rfl | hmem
      · exact ⟨by omega, hcol⟩
      · exact absurd hmem (List.not_mem_nil p)
  · exact clear_row_accesses_bounded (BUFFER_HEIGHT - 1) (by decide) p h

/-- Every access of `write_byte` stays inside the 25×80 grid, for any byte
and any starting state. -/
theorem write_byte_accesses_bounded (w : Writer) (byte : Nat) :
    ∀ p ∈ write_byte_accesses w byte, p.1 < 25 ∧ p.2 < 80 := by
  intro p hp
  by_cases hb : byte = 10
  · rw [write_byte_accesses, if_pos hb] at hp
    exact new_line_accesses_bounded p hp
  · rw [write_byte_accesses, if_neg hb] at hp
    rcases List.mem_append.1 hp with h | h
    · by_cases hcol : BUFFER_WIDTH ≤ w.column_position
      · rw [if_pos hcol] at h
        exact new_line_accesses_bounded p h
      · rw [if_neg hcol] at h
        exact absurd h (List.not_mem_nil p)
    · rw [List.mem_singleton] at h
      subst h
      constructor
      · show BUFFER_HEIGHT - 1 < 25
        decide
      · show (if BUFFER_WIDTH ≤ w.column_position then 0 else w.column_position) < 80
        by_cases hcol : BUFFER_WIDTH ≤ w.column_position
        · rw [if_pos hcol]; omega
        · rw [if_neg hcol]
          simp only [BUFFER_WIDTH] at hcol
          omega

/-- Every access of `write_string` stays inside the grid, from any
writer/accumulator pair whose accumulated accesses already do. -/
theorem write_string_accesses_from_bounded :
    ∀ (s : List Nat) (p : Writer × List (Nat × Nat)),
      (∀ q ∈ p.2, q.1 < 25 ∧ q.2 < 80) →
      ∀ q ∈ (write_string_accesses_from p s).2, q.1 < 25 ∧ q.2 < 80 := by
  intro s
  induction s with
  | nil => intro p hp q hq; exact hp q hq
  | cons b s ih =>
    intro p hp q hq
    by_cases hc : (0x20 ≤ b ∧ b ≤ 0x7e) ∨ b = 10
    · have hstep : write_string_accesses_from p (b :: s) =
          write_string_accesses_from
            (write_byte p.1 b, p.2 ++ write_byte_accesses p.1 b) s := by
        simp only [write_string_accesses_from, List.foldl_cons]
        rw [if_pos hc]
      rw [hstep] at hq
      refine ih _ ?_ q hq
      intro q' hq'
      rcases List.mem_append.1 hq' with h | h
      · exact hp q' h
      · exact write_byte_accesses_bounded p.1 b q' h
    · have hstep : write_string_accesses_from p (b :: s) =
          write_string_accesses_from
            (write_byte p.1 0xfe, p.2 ++ write_byte_accesses p.1 0xfe) s := by
        simp only [write_string_accesses_from, List.foldl_cons]
        rw [if_neg hc]
      rw [hstep] at hq
      refine ih _ ?_ q hq
      intro q' hq'
      rcases List.mem_append.1 hq' with h | h
      · exact hp q' h
      · exact write_byte_accesses_bounded p.1 0xfe q' h

/-- Every access of `write_string` stays inside the 25×80 grid. -/
theorem write_string_accesses_bounded (w : Writer) (s : List Nat) :
    ∀ p ∈ write_string_accesses w s, p.1 < 25 ∧ p.2 < 80 := by
  intro p hp
  exact write_string_accesses_from_bounded s (w, [])
    (fun q hq => absurd hq (List.not_mem_nil q)) p hp

/-! ### Claim theorems -/

/-- C1: writing the newline byte resets `column_position` to 0, copies every
row `r` from 1 to 24 into row `r - 1`, and fills the new bottom row with
blank cells (space byte, current attribute). -/
theorem c1_newline_scroll (w : Writer) :
    (write_byte w 10).column_position = 0 ∧
    (∀ r, 1 ≤ r → r ≤ 24 → ∀ c, c < 80 →
      (write_byte w 10).chars (r - 1) c = w.chars r c) ∧
    (∀ c, c < 80 → (write_byte w 10).chars 24 c = ⟨0x20, w.color_code⟩) := by
  rw [write_byte_newline]
  refine ⟨new_line_column w, ?_, ?_⟩
  · intro r h1 h24 c hc
    rw [new_line_chars]
    have hA : ¬ (r - 1 = 24 ∧ c < 80) := by omega
    have hB : r - 1 < 24 ∧ c < 80 := by omega
    rw [if_neg hA, if_pos hB]
    have hr : r - 1 + 1 = r := by omega
    rw [hr]
  · intro c hc
    rw [new_line_chars, if_pos ⟨rfl, hc⟩]
    rfl

/-- C1 witness: the scroll equalities at a concrete writer and cells. -/
theorem c1_newline_scroll_witness :
    (write_byte fullWriter 10).column_position = 0 ∧
    (write_byte fullWriter 10).chars 0 5 = fullWriter.chars 1 5 ∧
    (write_byte fullWriter 10).chars 24 5 = ⟨0x20, fullWriter.color_code⟩ := by
  obtain ⟨h1, h2, h3⟩ := c1_newline_scroll fullWriter
  exact ⟨h1, h2 1 (by decide) (by decide) 5 (by decide), h3 5 (by decide)⟩

/-- C2 counterexample: at `column_position = 80` a printable byte does not
advance the column by 1 (it scrolls and lands at column 1), refuting the
claim for every Writer state. -/
theorem c2_counterexample :
    ((0x20:Nat) ≤ 65 ∧ (65:Nat) ≤ 0x7e) ∧
    ¬ ((write_byte fullWriter 65).column_position =
        fullWriter.column_position + 1 ∧
      ∀ r c, r ≠ 24 → (write_byte fullWriter 65).chars r c =
        fullWriter.chars r c) := by
  refine ⟨by decide, ?_⟩
  intro h
  have hcol : (write_byte fullWriter 65).column_position = 1 := by
    rw [write_byte_of_full fullWriter 65 (by decide) (by decide)]
  rw [hcol] at h
  exact absurd h.1 (by decide)

/-- C2 amended: on a state whose line is not yet full
(`column_position < 80`), a printable byte advances the column by exactly 1
and leaves every row other than the bottom row unchanged. -/
theorem c2_printable_advance (w : Writer) (b : Nat)
    (hb : 0x20 ≤ b ∧ b ≤ 0x7e) (hcol : w.column_position < 80) :
    (write_byte w b).column_position = w.column_position + 1 ∧
    ∀ r c, r ≠ 24 → (write_byte w b).chars r c = w.chars r c := by
  have hb10 : b ≠ 10 := by omega
  rw [write_byte_of_lt w b hb10 hcol]
  refine ⟨rfl, ?_⟩
  intro r c hr
  show writeCellAt w.chars 24 w.column_position ⟨b, w.color_code⟩ r c = w.chars r c
  rw [writeCellAt_apply, if_neg (fun h => hr h.1)]

/-- C2 witness: the amended claim at a concrete writer, byte and cell. -/
theorem c2_printable_advance_witness :
    ((0x20:Nat) ≤ 65 ∧ (65:Nat) ≤ 0x7e) ∧ freshWriter.column_position < 80 ∧
    (write_byte freshWriter 65).column_position =
      freshWriter.column_position + 1 ∧
    (write_byte freshWriter 65).chars 3 7 = freshWriter.chars 3 7 := by
  obtain ⟨h1, h2⟩ := c2_printable_advance freshWriter 65 (by decide) (by decide)
  exact ⟨by decide, by decide, h1, h2 3 7 (by decide)⟩

/-- C3: from column 0, 80 printable bytes cause no scroll and fill the line
to column 80; the 81st printable byte triggers exactly one scroll, is stored
at column 0 of the fresh bottom row and leaves the column at 1. -/
theorem c3_wrap_at_81 (w : Writer) (bs : List Nat) (b : Nat)
    (h0 : w.column_position = 0) (hlen : bs.length = 80)
    (hp : ∀ x ∈ bs, 0x20 ≤ x ∧ x ≤ 0x7e) (hb : 0x20 ≤ b ∧ b ≤ 0x7e) :
    (write_bytes_count w bs).2 = 0 ∧
    (write_bytes_count w bs).1.column_position = 80 ∧
    write_byte_scrolls (write_bytes_count w bs).1 b = 1 ∧
    (write_byte (write_bytes_count w bs).1 b).column_position = 1 ∧
    (write_byte (write_bytes_count w bs).1 b).chars 24 0 = ⟨b, w.color_code⟩ := by
  have hb10 : b ≠ 10 := by omega
  obtain ⟨h1, h2, h3⟩ := write_bytes_count_printable bs w 0 hp (by rw [h0, hlen])
  have hcol80 : (write_bytes_count w bs).1.column_position = 80 := by
    show (write_bytes_count_from (w, 0) bs).1.column_position = 80
    rw [h1, h0, hlen]
  have hfull : 80 ≤ (write_bytes_count w bs).1.column_position := by
    rw [hcol80]
  have hcolor : (write_bytes_count w bs).1.color_code = w.color_code := h2
  refine ⟨h3, hcol80, ?_, ?_, ?_⟩
  · have hW : BUFFER_WIDTH ≤ (write_bytes_count w bs).1.column_position := by
      show 80 ≤ (write_bytes_count w bs).1.column_position
      exact hfull
    rw [write_byte_scrolls, if_neg hb10, if_pos hW]
  · rw [write_byte_of_full _ b hb10 hfull]
  · rw [write_byte_of_full _ b hb10 hfull]
    show writeCellAt (new_line (write_bytes_count w bs).1).chars 24 0
        ⟨b, (write_bytes_count w bs).1.color_code⟩ 24 0 = _
    rw [writeCellAt_apply, if_pos ⟨rfl, rfl⟩, hcolor]

/-- C3 witness: 80 copies of a printable byte from a concrete fresh writer,
then one more printable byte. -/
theorem c3_wrap_at_81_witness :
    freshWriter.column_position = 0 ∧
    (write_bytes_count freshWriter (List.replicate 80 65)).2 = 0 ∧
    (write_bytes_count freshWriter (List.replicate 80 65)).1.column_position = 80 ∧
    write_byte_scrolls (write_bytes_count freshWriter (List.replicate 80 65)).1 66 = 1 ∧
    (write_byte (write_bytes_count freshWriter (List.replicate 80 65)).1 66).column_position = 1 := by
  obtain ⟨h1, h2, h3, h4, h5⟩ := c3_wrap_at_81 freshWriter (List.replicate 80 65) 66
    rfl (by decide) (by decide) (by decide)
  exact ⟨rfl, h1, h2, h3, h4⟩

/-- C4: `write_string` dispatches each byte in order through the
printable-or-newline filter (`translate_byte`): printable ASCII and newline
pass unchanged, any other byte becomes 0xfe, and a non-printable byte ends
up as 0xfe in the target cell, never verbatim. -/
theorem c4_dispatch (w : Writer) (s : List Nat) :
    write_string w s = s.foldl (fun w b => write_byte w (translate_byte b)) w ∧
    (∀ b, ((0x20 ≤ b ∧ b ≤ 0x7e) ∨ b = 10) → translate_byte b = b) ∧
    (∀ b, ¬ ((0x20 ≤ b ∧ b ≤ 0x7e) ∨ b = 10) → translate_byte b = 0xfe) ∧
    (∀ b, w.column_position < 80 → ¬ ((0x20 ≤ b ∧ b ≤ 0x7e) ∨ b = 10) →
      (write_string w [b]).chars 24 w.column_position = ⟨0xfe, w.color_code⟩) := by
  refine ⟨write_string_eq_foldl w s, ?_, ?_, ?_⟩
  · intro b hb; rw [translate_byte, if_pos hb]
  · intro b hb; rw [translate_byte, if_neg hb]
  · intro b hcol hb
    have h1 : write_string w [b] = write_byte w 0xfe := by
      simp only [write_string, List.foldl_cons, List.foldl_nil]
      rw [if_neg hb]
    rw [h1, write_byte_of_lt w 0xfe (by omega) hcol]
    show writeCellAt w.chars 24 w.column_position ⟨0xfe, w.color_code⟩
        24 w.column_position = _
    rw [writeCellAt_apply, if_pos ⟨rfl, rfl⟩]

/-- C4 witness: 0x00 and 0x7f both land as 0xfe on a concrete writer. -/
theorem c4_dispatch_witness :
    freshWriter.column_position < 80 ∧
    (write_string freshWriter [0]).chars 24 freshWriter.column_position =
      ⟨0xfe, freshWriter.color_code⟩ ∧
    (write_string freshWriter [0x7f]).chars 24 freshWriter.column_position =
      ⟨0xfe, freshWriter.color_code⟩ := by
  obtain ⟨-, -, -, h4⟩ := c4_dispatch freshWriter []
  exact ⟨by decide, h4 0 (by decide) (by decide), h4 0x7f (by decide) (by decide)⟩

/-- C5: the attribute byte is `(background << 4) | foreground`; its low
nibble is the foreground code and its high nibble the background code. -/
theorem c5_colorcode_nibbles (fg bg : Color) :
    (ColorCode.new fg bg).val = ((bg.toU8 <<< 4) ||| fg.toU8) ∧
    (ColorCode.new fg bg).val % 16 = fg.toU8 ∧
    (ColorCode.new fg bg).val / 16 = bg.toU8 := by
  cases fg <;> cases bg <;> decide

/-- C6: from any state with `column_position ≤ 80`, every operation keeps
`column_position ≤ 80` and every buffer access uses a row index below 25 and
a column index below 80 (`clear_row`'s row is in range whenever its argument
is, and the driver only calls it at row 24). -/
theorem c6_invariant_and_bounds (w : Writer) (hw : w.column_position ≤ 80) :
    (∀ b, (write_byte w b).column_position ≤ 80 ∧
      ∀ p ∈ write_byte_accesses w b, p.1 < 25 ∧ p.2 < 80) ∧
    ((new_line w).column_position ≤ 80 ∧
      ∀ p ∈ new_line_accesses, p.1 < 25 ∧ p.2 < 80) ∧
    (∀ r, (clear_row w r).column_position ≤ 80 ∧
      (r < 25 → ∀ p ∈ clear_row_accesses r, p.1 < 25 ∧ p.2 < 80)) ∧
    (∀ s, (write_string w s).column_position ≤ 80 ∧
      ∀ p ∈ write_string_accesses w s, p.1 < 25 ∧ p.2 < 80) := by
  refine ⟨fun b => ⟨write_byte_column_le w b, write_byte_accesses_bounded w b⟩,
    ⟨by rw [new_line_column]; omega, new_line_accesses_bounded⟩,
    fun r => ⟨by rw [clear_row_column]; exact hw,
      fun hr => clear_row_accesses_bounded r hr⟩,
    fun s => ⟨write_string_column_le w s hw, write_string_accesses_bounded w s⟩⟩

/-- C6 witness: the invariant at a concrete writer and byte. -/
theorem c6_invariant_and_bounds_witness :
    fullWriter.column_position ≤ 80 ∧
    ((write_byte fullWriter 65).column_position ≤ 80 ∧
      ∀ p ∈ write_byte_accesses fullWriter 65, p.1 < 25 ∧ p.2 < 80) := by
  have h := c6_invariant_and_bounds fullWriter (by decide)
  exact ⟨by decide, h.1 65⟩

/-- C7 counterexample: the test literal has 38 bytes, not 39, and after
writing it on a fresh bottom row the cell at column 38 still holds the
prior blank rather than a 39th character. -/
theorem c7_counterexample :
    testBytes.length = 38 ∧ ¬ testBytes.length = 39 ∧
    (write_string freshWriter testBytes).chars 24 38 =
      blankChar freshWriter := by
  refine ⟨by decide, by decide, ?_⟩
  obtain ⟨-, -, h3⟩ := write_string_printable_run testBytes freshWriter
    (by decide) (by decide)
  have hcell := h3 24 38 (fun _ => Or.inr (by decide))
  rw [hcell]
  decide

/-- C7 amended: the literal has 38 characters; from a fresh bottom row and
column 0, `write_string` leaves cells `(24, 0)` through `(24, 37)` holding
exactly those 38 characters in order, each with the current attribute. -/
theorem c7_round_trip (w : Writer) (h0 : w.column_position = 0)
    (hfresh : ∀ c, c < 80 → w.chars 24 c = blankChar w) :
    ∀ i, i < 38 →
      (write_string w testBytes).chars 24 i =
        ⟨testBytes.getD i 0, w.color_code⟩ := by
  intro i hi
  have hp : ∀ b ∈ testBytes, 0x20 ≤ b ∧ b ≤ 0x7e := by decide
  have hlen38 : testBytes.length = 38 := by decide
  obtain ⟨-, h2, -⟩ := write_string_printable_run testBytes w hp
    (by rw [h0, hlen38]; omega)
  have hcell := h2 i (by rw [hlen38]; omega)
  rw [h0] at hcell
  simpa using hcell

/-- C7 witness: first and last characters on a concrete fresh writer. -/
theorem c7_round_trip_witness :
    freshWriter.column_position = 0 ∧
    (write_string freshWriter testBytes).chars 24 0 =
      ⟨testBytes.getD 0 0, freshWriter.color_code⟩ ∧
    (write_string freshWriter testBytes).chars 24 37 =
      ⟨testBytes.getD 37 0, freshWriter.color_code⟩ := by
  have h := c7_round_trip freshWriter rfl (by decide)
  exact ⟨rfl, h 0 (by decide), h 37 (by decide)⟩

/-- C8 counterexample: with the line exactly full, a newline byte performs
exactly one scroll, not two — the state after equals one `new_line` (row 0
takes old row 1), not two (which would put old row 2 there). -/
theorem c8_counterexample :
    fullWriter.column_position = 80 ∧
    write_byte_scrolls fullWriter 10 = 1 ∧
    ¬ write_byte_scrolls fullWriter 10 = 2 ∧
    (write_byte fullWriter 10).chars 0 0 = fullWriter.chars 1 0 ∧
    (new_line (new_line fullWriter)).chars 0 0 = fullWriter.chars 2 0 ∧
    ¬ fullWriter.chars 1 0 = fullWriter.chars 2 0 := by
  have hn0 : ¬ ((0:Nat) = 24 ∧ (0:Nat) < 80) := by omega
  have hp0 : (0:Nat) < 24 ∧ (0:Nat) < 80 := by omega
  have hn1 : ¬ ((0:Nat) + 1 = 24 ∧ (0:Nat) < 80) := by omega
  have hp1 : (0:Nat) + 1 < 24 ∧ (0:Nat) < 80 := by omega
  refine ⟨by decide, by decide, by decide, ?_, ?_, by decide⟩
  · rw [write_byte_newline, new_line_chars, if_neg hn0, if_pos hp0]
  · rw [new_line_chars, if_neg hn0, if_pos hp0,
      new_line_chars, if_neg hn1, if_pos hp1]

/-- C8 amended: when the line is exactly full and the next byte is the
newline byte, the `match` examines the byte first, so only the newline's own
single scroll occurs — no extra scroll is inserted. -/
theorem c8_single_scroll (w : Writer) (hcol : w.column_position = 80) :
    write_byte_scrolls w 10 = 1 ∧
    (write_byte w 10).column_position = 0 ∧
    (∀ r c, r < 24 → c < 80 → (write_byte w 10).chars r c = w.chars (r + 1) c) ∧
    (∀ c, c < 80 → (write_byte w 10).chars 24 c = blankChar w) := by
  refine ⟨by rw [write_byte_scrolls, if_pos rfl], ?_, ?_, ?_⟩
  · rw [write_byte_newline, new_line_column]
  · intro r c hr hc
    have hn : ¬ (r = 24 ∧ c < 80) := by omega
    rw [write_byte_newline, new_line_chars, if_neg hn, if_pos ⟨hr, hc⟩]
  · intro c hc
    rw [write_byte_newline, new_line_chars, if_pos ⟨rfl, hc⟩]

/-- C8 amended witness: the single scroll at a concrete full-line writer. -/
theorem c8_single_scroll_witness :
    fullWriter.column_position = 80 ∧
    write_byte_scrolls fullWriter 10 = 1 ∧
    (write_byte fullWriter 10).column_position = 0 ∧
    (write_byte fullWriter 10).chars 2 9 = fullWriter.chars 3 9 ∧
    (write_byte fullWriter 10).chars 24 9 = blankChar fullWriter := by
  obtain ⟨h1, h2, h3, h4⟩ := c8_single_scroll fullWriter (by decide)
  exact ⟨by decide, h1, h2, h3 2 9 (by decide) (by decide), h4 9 (by decide)⟩

/-- C9: `write_byte` stores any non-newline byte verbatim — including
non-printable ones — at the target cell with the current attribute; the
0xfe substitution lives only in `write_string`'s dispatch. -/
theorem c9_write_byte_verbatim (w : Writer) (b : Nat) (hb : b ≠ 10) :
    (write_byte w b).chars 24
        (if 80 ≤ w.column_position then 0 else w.column_position) =
      ⟨b, w.color_code⟩ ∧
    write_string w [b] = write_byte w (translate_byte b) := by
  constructor
  · by_cases hcol : 80 ≤ w.column_position
    · rw [if_pos hcol, write_byte_of_full w b hb hcol]
      show writeCellAt (new_line w).chars 24 0 ⟨b, w.color_code⟩ 24 0 = _
      rw [writeCellAt_apply, if_pos ⟨rfl, rfl⟩]
    · rw [if_neg hcol, write_byte_of_lt w b hb (by omega)]
      show writeCellAt w.chars 24 w.column_position ⟨b, w.color_code⟩
          24 w.column_position = _
      rw [writeCellAt_apply, if_pos ⟨rfl, rfl⟩]
  · rw [write_string_eq_foldl]
    simp only [List.foldl_cons, List.foldl_nil]

/-- C9 witness: the non-printable byte 0x00 is stored verbatim by
`write_byte` on a concrete writer. -/
theorem c9_write_byte_verbatim_witness :
    (0:Nat) ≠ 10 ∧
    (write_byte fullWriter 0).chars 24
        (if 80 ≤ fullWriter.column_position then 0
         else fullWriter.column_position) =
      ⟨0, fullWriter.color_code⟩ ∧
    write_string fullWriter [0] = write_byte fullWriter (translate_byte 0) := by
  obtain ⟨h1, h2⟩ := c9_write_byte_verbatim fullWriter 0 (by decide)
  exact ⟨by decide, h1, h2⟩

/-- C10: every Writer operation leaves the color code unchanged. -/
theorem c10_color_preserved (w : Writer) :
    (∀ b, (write_byte w b).color_code = w.color_code) ∧
    (new_line w).color_code = w.color_code ∧
    (∀ r, (clear_row w r).color_code = w.color_code) ∧
    (∀ s, (write_string w s).color_code = w.color_code) :=
  ⟨fun b => write_byte_color w b, new_line_color w,
    fun r => clear_row_color w r, fun s => write_string_color w s⟩

end VgaBuffer
